import Mathlib

/-!
# libtego signals: boxed callbacks, the callback registry and the callback queue

A shallow embedding of `src/libtego/source/signals.hpp`.

* Pointers and function pointers are addresses (`Nat`), zero being `nullptr`.
* Calls that leave the translation unit (a host handler, a `cleanup_EVENT_args`
  routine, the deleter of a heap-allocated lambda) are recorded in an effect log;
  whether a handler or a cleanup routine returns or raises is given by a `Host`.
* `type_erased_callback` is parametrised by the type `F` of the computations it
  boxes (the `FUNC` of its template constructor).
* The header only declares `type_erased_callback::invoke`, the move operations,
  the registry constructor and the whole of `callback_queue`; those are modelled
  from the specification and marked as such.
-/

namespace tego

/-! ## Values -/

/-- Raw pointers and function pointers are addresses; zero is the null pointer. -/
abbrev Ptr := Nat

/-- The null pointer. -/
def nullptr : Ptr := 0

/-- The events instantiated by `TEGO_IMPLEMENT_CALLBACK_FUNCTIONS` (signals.hpp, lines 81 to 87). -/
inductive Event where
  | tor_state_changed
  | tor_log_received
  | chat_request_received
  | chat_request_response_received
  | message_received
  | user_status_changed
  | new_identity_created
  deriving DecidableEq, Repr

/-- The parameter types that occur in the macro instantiations. -/
inductive CType where
  | tego_user_id_ptr
  | tego_user_status
  | tego_ed25519_private_key_ptr
  deriving DecidableEq, Repr

/-- An argument value: its C type and its bits (an address or an enumerator). -/
structure Value where
  ty : CType
  raw : Nat
  deriving DecidableEq, Repr

/-- An exception in flight, identified by a number. -/
abbrev Exn := Nat

/-- The behaviour of the code behind the function pointers: for a call, `none` when it returns
normally and `some e` when it raises `e`. -/
structure Host where
  handler : Ptr → Ptr → List Value → Option Exn
  cleanup : Event → List Value → Option Exn

/-! ## Effects -/

/-- The observable calls, in the order they happen. -/
inductive Effect (F : Type) where
  /-- The call `callback(context, args...)`. -/
  | handler (callback : Ptr) (context : Ptr) (args : List Value)
  /-- The call `cleanup_EVENT_args(args...)`. -/
  | cleanup (ev : Event) (args : List Value)
  /-- The deleter ran on a heap-allocated `FUNC`. -/
  | delete_FUNC (lambda : F)
  deriving DecidableEq, Repr

/-- The result of running a computation: the log it leaves and the exception that escaped. -/
structure Outcome (F : Type) where
  log : List (Effect F)
  raised : Option Exn

/-- The call through a handler function pointer. -/
def Host.call_handler {F : Type} (host : Host) (callback context : Ptr) (args : List Value)
    (log : List (Effect F)) : Outcome F :=
  { log := log ++ [Effect.handler callback context args],
    raised := host.handler callback context args }

/-- The call of `cleanup_EVENT_args`. -/
def Host.call_cleanup {F : Type} (host : Host) (ev : Event) (args : List Value)
    (log : List (Effect F)) : Outcome F :=
  { log := log ++ [Effect.cleanup ev args],
    raised := host.cleanup ev args }

/-! ## type_erased_callback -/

/-- The member `std::unique_ptr<void, void(*)(void*)>`: the owned heap object (`none` for a null
pointer) and the deleter function pointer. -/
structure unique_ptr (F : Type) where
  ptr : Option F
  deleter : Option (F → List (Effect F) → List (Effect F))

/-- The destructor of `std::unique_ptr`: the deleter runs when the pointer is not null. -/
def unique_ptr.destroy {F : Type} (self : unique_ptr F) (log : List (Effect F)) :
    List (Effect F) :=
  match self.ptr, self.deleter with
  | some data, some del => del data log
  | _, _ => log

/-- The class `type_erased_callback` (lines 7 to 37); the field defaults are the member
initialisers of lines 35 and 36. -/
structure type_erased_callback (F : Type) where
  data_ : unique_ptr F := { ptr := none, deleter := none }
  callback_ : Option (F → List (Effect F) → Outcome F) := none

/-- The defaulted default constructor (line 10). -/
def type_erased_callback.empty {F : Type} : type_erased_callback F := {}

/-- The template constructor (lines 14 to 32): the function is moved to the heap with a
deleter that deletes it, and `callback_` is the thunk that calls it. `call` is the call
operator of `FUNC`. -/
def type_erased_callback.of_FUNC {F : Type} (call : F → List (Effect F) → Outcome F)
    (func : F) : type_erased_callback F :=
  { data_ :=
      { ptr := some func,
        deleter := some (fun data log => log ++ [Effect.delete_FUNC data]) },
    callback_ := some (fun data log => call data log) }

/-- Modelled from the spec: the body of `type_erased_callback::invoke()` is not in the
sources. It executes the captured computation through `callback_` on the owned state and
catches nothing; on an empty box it is a no-op. -/
def type_erased_callback.invoke {F : Type} (self : type_erased_callback F)
    (log : List (Effect F)) : Outcome F :=
  match self.callback_, self.data_.ptr with
  | some callback, some data => callback data log
  | _, _ => { log := log, raised := none }

/-- The implicit destructor: it destroys the member `data_`. -/
def type_erased_callback.destroy {F : Type} (self : type_erased_callback F)
    (log : List (Effect F)) : List (Effect F) :=
  self.data_.destroy log

/-- Modelled from the spec: the body of the move constructor is not in the sources. The state
and both function references go to the new box and the source becomes empty. Returns the new
box and the moved-from source. -/
def type_erased_callback.move_construct {F : Type} (other : type_erased_callback F) :
    type_erased_callback F × type_erased_callback F :=
  ({ data_ := other.data_, callback_ := other.callback_ }, type_erased_callback.empty)

/-- Modelled from the spec: the body of the move assignment is not in the sources. The state
the target owned is released, the state and both function references of the source go to the
target, and the source becomes empty. Returns the target, the moved-from source and the log. -/
def type_erased_callback.move_assign {F : Type} (self other : type_erased_callback F)
    (log : List (Effect F)) :
    type_erased_callback F × type_erased_callback F × List (Effect F) :=
  ({ data_ := other.data_, callback_ := other.callback_ }, type_erased_callback.empty,
    self.data_.destroy log)

/-! ## callback_registry -/

/-- The class `callback_registry` (lines 46 to 92): one handler slot per instantiation of the
macro (line 60) and the context pointer (line 91). -/
structure callback_registry where
  tor_state_changed_ : Ptr := nullptr
  tor_log_received_ : Ptr := nullptr
  chat_request_received_ : Ptr := nullptr
  chat_request_response_received_ : Ptr := nullptr
  message_received_ : Ptr := nullptr
  user_status_changed_ : Ptr := nullptr
  new_identity_created_ : Ptr := nullptr
  context_ : Ptr := nullptr
  deriving DecidableEq, Repr

/-- Modelled from the spec: the body of `callback_registry(tego_context*)` is not in the
sources. The registry keeps the context it is given; the slots take their member
initialisers. -/
def callback_registry.new (context : Ptr) : callback_registry :=
  { context_ := context }

/-- The member `EVENT_` of the registry. -/
def callback_registry.slot (self : callback_registry) : Event → Ptr
  | .tor_state_changed => self.tor_state_changed_
  | .tor_log_received => self.tor_log_received_
  | .chat_request_received => self.chat_request_received_
  | .chat_request_response_received => self.chat_request_response_received_
  | .message_received => self.message_received_
  | .user_status_changed => self.user_status_changed_
  | .new_identity_created => self.new_identity_created_

/-- The method `register_EVENT(cb)` (lines 63 to 66): `EVENT_ = cb`. -/
def callback_registry.register_EVENT (ev : Event) (cb : Ptr) (self : callback_registry) :
    callback_registry :=
  match ev with
  | .tor_state_changed => { self with tor_state_changed_ := cb }
  | .tor_log_received => { self with tor_log_received_ := cb }
  | .chat_request_received => { self with chat_request_received_ := cb }
  | .chat_request_response_received => { self with chat_request_response_received_ := cb }
  | .message_received => { self with message_received_ := cb }
  | .user_status_changed => { self with user_status_changed_ := cb }
  | .new_identity_created => { self with new_identity_created_ := cb }

/-- The closure type of the lambda of `emit_EVENT` (lines 72 to 76): the event whose expansion
it belongs to (it fixes which `cleanup_EVENT_args` the body names) and the captures `context`,
`callback` and the argument pack, all taken by copy. -/
structure emit_lambda where
  ev : Event
  context : Ptr
  callback : Ptr
  args : List Value
  deriving DecidableEq, Repr

/-- The body of the lambda (lines 74 and 75): the handler call, then the cleanup call. There
is no handler block, so an exception of the first call skips the second. The arguments are
pointers and enumerators, so forwarding them twice passes the same values. -/
def emit_lambda.call (host : Host) (self : emit_lambda) (log : List (Effect emit_lambda)) :
    Outcome emit_lambda :=
  let r := host.call_handler self.callback self.context self.args log
  match r.raised with
  | some _ => r
  | none => host.call_cleanup self.ev self.args r.log

/-- The box that `emit_EVENT` builds (lines 71 to 77). -/
def callback_registry.emit_box (host : Host) (self : callback_registry) (ev : Event)
    (args : List Value) : type_erased_callback emit_lambda :=
  type_erased_callback.of_FUNC (emit_lambda.call host)
    { ev := ev, context := self.context_, callback := self.slot ev, args := args }

/-- The method `emit_EVENT(args...)` (lines 67 to 79). The body of the private `push_back` is
not in the sources and is a parameter acting on the rest of the program state `W`. -/
def callback_registry.emit_EVENT {W : Type} (host : Host)
    (push_back : type_erased_callback emit_lambda → W → W)
    (ev : Event) (args : List Value) (self : callback_registry) (w : W) :
    callback_registry × W :=
  if self.slot ev ≠ nullptr then
    (self, push_back (self.emit_box host ev args) w)
  else
    (self, w)

/-! ## callback_queue

Only the class declaration (lines 99 to 114) is in the sources; the member functions and the
worker are modelled from the specification. A guarded section is one atomic step, and an
interleaving of threads is a list of such steps. -/

/-- Modelled from the spec: the three states it names for the worker loop. -/
inductive worker_state where
  | Running
  | Terminating
  | Stopped
  deriving DecidableEq, Repr

/-- The class `callback_queue` (lines 99 to 114): the members `context_`, `terminating_` and
`pending_callbacks_`; the thread `worker_` is its local box (the head it removed and has not
invoked yet) and whether its loop has exited. The mutex is the atomicity of the steps. -/
structure callback_queue (F : Type) where
  context_ : Ptr
  terminating_ : Bool
  pending_callbacks_ : List (type_erased_callback F)
  worker_current : Option (type_erased_callback F)
  worker_exited : Bool

/-- Modelled from the spec: the state of the worker loop, Running until the termination flag
is set, Terminating until the loop has exited, then Stopped. -/
def callback_queue.state {F : Type} (self : callback_queue F) : worker_state :=
  if self.worker_exited then .Stopped
  else if self.terminating_ then .Terminating
  else .Running

/-- A queue together with what its worker has done: the effect log, the boxes `invoke()` was
called on (in order), and the exception that escaped the worker, if any. -/
structure queue_world (F : Type) where
  queue : callback_queue F
  log : List (Effect F)
  invoked : List (type_erased_callback F)
  escaped : Option Exn

/-- Modelled from the spec: the body of `callback_queue(tego_context*)` is not in the sources.
The queue starts Running with nothing pending. -/
def callback_queue.new {F : Type} (context : Ptr) : callback_queue F :=
  { context_ := context, terminating_ := false, pending_callbacks_ := [],
    worker_current := none, worker_exited := false }

/-- A fresh queue whose worker has done nothing yet. -/
def queue_world.new {F : Type} (context : Ptr) (log : List (Effect F)) : queue_world F :=
  { queue := callback_queue.new context, log := log, invoked := [], escaped := none }

/-- Modelled from the spec: the body of `callback_queue::push_back` is not in the sources.
Under the guard the box is appended to the tail of the pending sequence; no user code runs. -/
def callback_queue.push_back {F : Type} (cb : type_erased_callback F)
    (self : callback_queue F) : callback_queue F :=
  { self with pending_callbacks_ := self.pending_callbacks_ ++ [cb] }

/-- The effect of `callback_queue::push_back` on the world: only the queue changes. -/
def queue_world.push_back {F : Type} (cb : type_erased_callback F) (s : queue_world F) :
    queue_world F :=
  { s with queue := s.queue.push_back cb }

/-- Modelled from the spec: the worker loop is not in the sources. One step of it: with a box
in hand, invoke it outside the guard and discard it (an exception is not caught and ends the
worker); otherwise, under the guard, remove the head of the pending sequence, or wait when the
sequence is empty, or exit when it is empty and the termination flag is set. -/
def queue_world.worker_step {F : Type} (s : queue_world F) : queue_world F :=
  match s.escaped with
  | some _ => s
  | none =>
    if s.queue.worker_exited then s
    else
      match s.queue.worker_current with
      | some cb =>
        let r := cb.invoke s.log
        match r.raised with
        | some e =>
          { queue := { s.queue with worker_current := none },
            log := r.log, invoked := s.invoked ++ [cb], escaped := some e }
        | none =>
          { queue := { s.queue with worker_current := none },
            log := cb.destroy r.log, invoked := s.invoked ++ [cb], escaped := none }
      | none =>
        match s.queue.pending_callbacks_ with
        | cb :: rest =>
          { s with queue := { s.queue with pending_callbacks_ := rest,
                                           worker_current := some cb } }
        | [] =>
          if s.queue.terminating_ then
            { s with queue := { s.queue with worker_exited := true } }
          else s

/-- Modelled from the spec: joining the worker. The thread that joins waits, step of the worker
by step, until the worker loop has exited; `none` when the fuel runs out first. -/
def queue_world.join {F : Type} : Nat → queue_world F → Option (queue_world F)
  | fuel, s =>
    if s.queue.worker_exited then some s
    else
      match fuel with
      | 0 => none
      | fuel + 1 => queue_world.join fuel s.worker_step

/-- Modelled from the spec: the body of `~callback_queue()` is not in the sources. It sets the
termination flag, wakes the worker, which flushes the remaining work, and joins it. -/
def queue_world.destructor {F : Type} (fuel : Nat) (s : queue_world F) :
    Option (queue_world F) :=
  queue_world.join fuel { s with queue := { s.queue with terminating_ := true } }

/-- One atomic step of an interleaving: a `push_back` by some thread, or a step of the
worker. -/
inductive Action (F : Type) where
  | push_back (thread : Nat) (cb : type_erased_callback F)
  | worker

/-- The effect of one step. -/
def Action.apply {F : Type} : Action F → queue_world F → queue_world F
  | .push_back _ cb, s => s.push_back cb
  | .worker, s => s.worker_step

/-- The effect of an interleaving, first step first. -/
def run_schedule {F : Type} : List (Action F) → queue_world F → queue_world F
  | [], s => s
  | a :: rest, s => run_schedule rest (a.apply s)

/-- The boxes pushed by an interleaving, in the order their appends completed. -/
def pushed {F : Type} : List (Action F) → List (type_erased_callback F)
  | [] => []
  | .push_back _ cb :: rest => cb :: pushed rest
  | .worker :: rest => pushed rest

/-- Modelled from the spec: the body of the private `callback_registry::push_back` is not in
the sources. The box goes onto the callback queue. -/
def callback_registry.push_back (cb : type_erased_callback emit_lambda)
    (w : queue_world emit_lambda) : queue_world emit_lambda :=
  w.push_back cb

/-! ## Moving boxes -/

/-- The two ways of moving a box into a new one. -/
inductive move_kind where
  | construct
  | assign
  deriving DecidableEq, Repr

/-- One move of `cur` into a new box, by move construction or by move assignment to a default
constructed box. Returns the new box, the moved-from box and the log. -/
def move_once {F : Type} (k : move_kind) (cur : type_erased_callback F)
    (log : List (Effect F)) :
    type_erased_callback F × type_erased_callback F × List (Effect F) :=
  match k with
  | .construct => (cur.move_construct.1, cur.move_construct.2, log)
  | .assign => type_erased_callback.empty.move_assign cur log

/-- A chain of moves: each step moves the current box on. Returns the box at the end of the
chain, the moved-from boxes left behind (oldest first) and the log. -/
def move_chain {F : Type} :
    List move_kind → type_erased_callback F → List (type_erased_callback F) →
      List (Effect F) →
      type_erased_callback F × List (type_erased_callback F) × List (Effect F)
  | [], cur, husks, log => (cur, husks, log)
  | k :: rest, cur, husks, log =>
    move_chain rest (move_once k cur log).1 (husks ++ [(move_once k cur log).2.1])
      (move_once k cur log).2.2

/-- Destroying every box of a list, first to last. -/
def destroy_all {F : Type} : List (type_erased_callback F) → List (Effect F) → List (Effect F)
  | [], log => log
  | b :: rest, log => destroy_all rest (b.destroy log)

/-! ## The argument shapes the specification lists -/

/-- A `push_back` that does nothing but record, in order, the boxes it is handed. -/
def record_push_back {F : Type} (cb : type_erased_callback F)
    (calls : List (type_erased_callback F)) : List (type_erased_callback F) :=
  calls ++ [cb]

/-- Whether an effect is a call of a cleanup routine. -/
def Effect.is_cleanup {F : Type} : Effect F → Bool
  | .cleanup _ _ => true
  | _ => false

/-- Whether an effect is a call of a handler. -/
def Effect.is_handler {F : Type} : Effect F → Bool
  | .handler _ _ _ => true
  | _ => false

/-- The number of cleanup calls in a log. -/
def cleanup_calls {F : Type} (log : List (Effect F)) : Nat :=
  (log.filter Effect.is_cleanup).length

/-- The registry after a sequence of registrations, first one first. -/
def register_all (regs : List (Event × Ptr)) (self : callback_registry) : callback_registry :=
  regs.foldl (fun r p => r.register_EVENT p.1 p.2) self

/-- A host whose handlers and cleanup routines all return normally. -/
def returning_host : Host :=
  { handler := fun _ _ _ => none, cleanup := fun _ _ => none }

/-- A host whose handlers all raise exception 42. -/
def raising_host : Host :=
  { handler := fun _ _ _ => some 42, cleanup := fun _ _ => none }

/-- A registry for context 7 with a handler at address 4096 for `user_status_changed` only. -/
def sample_registry : callback_registry :=
  (callback_registry.new 7).register_EVENT .user_status_changed 4096

/-- An argument list for `user_status_changed`: a user id pointer and a status. -/
def sample_status_args : List Value :=
  [{ ty := .tego_user_id_ptr, raw := 8192 }, { ty := .tego_user_status, raw := 1 }]

/-- An argument list for `new_identity_created`: a private key pointer. -/
def sample_key_args : List Value :=
  [{ ty := .tego_ed25519_private_key_ptr, raw := 12288 }]

/-- One call on a registry and the queue behind it: a registration, an emit, or a step of the
worker of the queue. -/
inductive Call where
  | register_EVENT (ev : Event) (cb : Ptr)
  | emit_EVENT (ev : Event) (args : List Value)
  | worker

/-- The effect of one call on the registry and the queue. -/
def Call.apply (host : Host) :
    Call → callback_registry × queue_world emit_lambda →
      callback_registry × queue_world emit_lambda
  | .register_EVENT ev cb, s => (s.1.register_EVENT ev cb, s.2)
  | .emit_EVENT ev args, s => s.1.emit_EVENT host callback_registry.push_back ev args s.2
  | .worker, s => (s.1, s.2.worker_step)

/-- The effect of a sequence of calls, first call first. -/
def run_calls (host : Host) :
    List Call → callback_registry × queue_world emit_lambda →
      callback_registry × queue_world emit_lambda
  | [], s => s
  | c :: rest, s => run_calls host rest (c.apply host s)

/-- The registrations of a list, as calls. -/
def register_calls (regs : List (Event × Ptr)) : List Call :=
  regs.map (fun p => Call.register_EVENT p.1 p.2)

/-- The box of a `user_status_changed` event of the sample registry for the user id at the
given address. -/
def sample_box (user : Nat) : type_erased_callback emit_lambda :=
  sample_registry.emit_box returning_host .user_status_changed
    [{ ty := .tego_user_id_ptr, raw := user }, { ty := .tego_user_status, raw := 1 }]

/-- Thread 1 pushes a1 (user 161), thread 2 pushes b1 (user 177), the worker takes a box,
thread 1 pushes a2 (user 162). -/
def sample_pushes : List (Action emit_lambda) :=
  [ .push_back 1 (sample_box 161), .push_back 2 (sample_box 177), .worker,
    .push_back 1 (sample_box 162) ]

/-- The sample pushes followed by enough worker steps to invoke all three boxes. -/
def sample_schedule : List (Action emit_lambda) :=
  sample_pushes ++ [.worker, .worker, .worker, .worker, .worker]

/-! ## Lemmas on the registry -/

theorem slot_new (context : Ptr) (ev : Event) :
    (callback_registry.new context).slot ev = nullptr := by
  cases ev <;> rfl

theorem slot_register_same (ev : Event) (cb : Ptr) (self : callback_registry) :
    (self.register_EVENT ev cb).slot ev = cb := by
  cases ev <;> rfl

theorem slot_register_other (ev other : Event) (cb : Ptr) (self : callback_registry)
    (h : other ≠ ev) : (self.register_EVENT ev cb).slot other = self.slot other := by
  cases ev <;> cases other <;> first | rfl | exact absurd rfl h

theorem context_register (ev : Event) (cb : Ptr) (self : callback_registry) :
    (self.register_EVENT ev cb).context_ = self.context_ := by
  cases ev <;> rfl

theorem register_register (ev : Event) (cb first : Ptr) (self : callback_registry) :
    (self.register_EVENT ev first).register_EVENT ev cb = self.register_EVENT ev cb := by
  cases ev <;> rfl

theorem context_register_all (regs : List (Event × Ptr)) (self : callback_registry) :
    (register_all regs self).context_ = self.context_ := by
  induction regs generalizing self with
  | nil => rfl
  | cons p rest ih =>
    show (register_all rest (self.register_EVENT p.1 p.2)).context_ = self.context_
    rw [ih, context_register]

theorem emit_box_invoke (host : Host) (self : callback_registry) (ev : Event)
    (args : List Value) (log : List (Effect emit_lambda)) :
    (self.emit_box host ev args).invoke log
      = emit_lambda.call host
          { ev := ev, context := self.context_, callback := self.slot ev, args := args } log :=
  rfl

/-! ## The claims on the registry -/

/-- C1: when the handler slot of an event kind is null, `emit_EVENT` returns the registry and
the rest of the program state exactly as they were, whatever `push_back` would do: `push_back`
is handed no box, the pending queue, the log and every slot are unchanged. This holds in
particular for a freshly constructed registry. -/
theorem emit_EVENT_null_handler_noop {W : Type} (host : Host)
    (push_back : type_erased_callback emit_lambda → W → W) (ev : Event) (args : List Value)
    (self : callback_registry) (w : W) (h : self.slot ev = nullptr) :
    self.emit_EVENT host push_back ev args w = (self, w)
    ∧ (self.emit_EVENT host record_push_back ev args []).2 = []
    ∧ (∀ q : queue_world emit_lambda,
        self.emit_EVENT host callback_registry.push_back ev args q = (self, q))
    ∧ (∀ context : Ptr,
        (callback_registry.new context).emit_EVENT host push_back ev args w
          = (callback_registry.new context, w)) := by
  refine ⟨?_, ?_, ?_, ?_⟩
  · simp [callback_registry.emit_EVENT, h]
  · simp [callback_registry.emit_EVENT, h]
  · intro q
    simp [callback_registry.emit_EVENT, h]
  · intro context
    simp [callback_registry.emit_EVENT, slot_new]

/-- Witness of C1: the sample registry has no handler for `new_identity_created`, and emitting
that event on a fresh queue changes nothing. -/
theorem emit_EVENT_null_handler_noop_witness :
    sample_registry.slot .new_identity_created = nullptr
    ∧ sample_registry.emit_EVENT returning_host callback_registry.push_back
        .new_identity_created sample_key_args (queue_world.new 7 [])
      = (sample_registry, queue_world.new 7 []) :=
  ⟨by decide,
    (emit_EVENT_null_handler_noop returning_host callback_registry.push_back
      .new_identity_created sample_key_args sample_registry (queue_world.new 7 [])
      (by decide)).1⟩

/-- C2: when the handler slot of an event kind is not null, `emit_EVENT` hands exactly one box
to `push_back` and does nothing else: the result is the unchanged registry and whatever
`push_back` makes of the state for that one box. With the queue behind `push_back`, the box is
appended to the pending sequence while the log, the invoked boxes and the worker are
untouched, so neither the handler nor the cleanup routine has run. -/
theorem emit_EVENT_pushes_one_box {W : Type} (host : Host)
    (push_back : type_erased_callback emit_lambda → W → W) (ev : Event) (args : List Value)
    (self : callback_registry) (w : W) (h : self.slot ev ≠ nullptr) :
    self.emit_EVENT host push_back ev args w
      = (self, push_back (self.emit_box host ev args) w)
    ∧ (self.emit_EVENT host record_push_back ev args []).2 = [self.emit_box host ev args]
    ∧ (∀ q : queue_world emit_lambda,
        self.emit_EVENT host callback_registry.push_back ev args q
          = (self,
              { queue :=
                  { context_ := q.queue.context_,
                    terminating_ := q.queue.terminating_,
                    pending_callbacks_ :=
                      q.queue.pending_callbacks_ ++ [self.emit_box host ev args],
                    worker_current := q.queue.worker_current,
                    worker_exited := q.queue.worker_exited },
                log := q.log, invoked := q.invoked, escaped := q.escaped })) := by
  refine ⟨?_, ?_, ?_⟩
  · simp [callback_registry.emit_EVENT, h]
  · simp [callback_registry.emit_EVENT, h, record_push_back]
  · intro q
    simp [callback_registry.emit_EVENT, h, callback_registry.push_back,
      queue_world.push_back, callback_queue.push_back]

/-- Witness of C2: the sample registry has a handler for `user_status_changed`, and emitting
that event hands one box to `push_back`. -/
theorem emit_EVENT_pushes_one_box_witness :
    sample_registry.slot .user_status_changed ≠ nullptr
    ∧ (sample_registry.emit_EVENT returning_host record_push_back .user_status_changed
        sample_status_args []).2
      = [sample_registry.emit_box returning_host .user_status_changed sample_status_args] :=
  ⟨by decide,
    (emit_EVENT_pushes_one_box returning_host record_push_back .user_status_changed
      sample_status_args sample_registry [] (by decide)).2.1⟩

/-- C3: for an event kind with a registered handler that returns, invoking the box that
`emit_EVENT` hands to `push_back` (through `invoke`, or through the stored thunk on the stored
state) appends to the log exactly the handler call, with the context of the registry and the
emitted arguments, followed by the call of the cleanup routine of that kind with the same
arguments. The context of a registry is the one it was constructed with, whatever was
registered since. -/
theorem emit_box_invoke_handler_then_cleanup (host : Host) (self : callback_registry)
    (ev : Event) (args : List Value) (log : List (Effect emit_lambda))
    (h : self.slot ev ≠ nullptr)
    (hret : host.handler (self.slot ev) self.context_ args = none) :
    (self.emit_EVENT host record_push_back ev args []).2.map (fun cb => cb.invoke log)
      = [{ log := log ++ [Effect.handler (self.slot ev) self.context_ args,
                          Effect.cleanup ev args],
           raised := host.cleanup ev args }]
    ∧ (∀ thunk ∈ (self.emit_box host ev args).callback_,
        ∀ data ∈ (self.emit_box host ev args).data_.ptr,
          thunk data log
            = { log := log ++ [Effect.handler (self.slot ev) self.context_ args,
                               Effect.cleanup ev args],
                raised := host.cleanup ev args })
    ∧ (∀ (context : Ptr) (regs : List (Event × Ptr)),
        (register_all regs (callback_registry.new context)).context_ = context) := by
  refine ⟨?_, ?_, ?_⟩
  · simp [callback_registry.emit_EVENT, h, record_push_back, emit_box_invoke,
      emit_lambda.call, Host.call_handler, Host.call_cleanup, hret]
  · intro thunk hthunk data hdata
    simp only [callback_registry.emit_box, type_erased_callback.of_FUNC, Option.mem_def,
      Option.some.injEq] at hthunk hdata
    subst hthunk hdata
    simp [emit_lambda.call, Host.call_handler, Host.call_cleanup, hret]
  · intro context regs
    rw [context_register_all]
    rfl

/-- Witness of C3: on the sample registry, invoking the box of a `user_status_changed` event
logs the handler at 4096 with context 7, then the cleanup. -/
theorem emit_box_invoke_handler_then_cleanup_witness :
    sample_registry.slot .user_status_changed ≠ nullptr
    ∧ returning_host.handler (sample_registry.slot .user_status_changed)
        sample_registry.context_ sample_status_args = none
    ∧ (sample_registry.emit_EVENT returning_host record_push_back .user_status_changed
          sample_status_args []).2.map (fun cb => cb.invoke [])
      = [{ log := [Effect.handler 4096 7 sample_status_args,
                   Effect.cleanup .user_status_changed sample_status_args],
           raised := none }] :=
  ⟨by decide, rfl,
    (emit_box_invoke_handler_then_cleanup returning_host sample_registry .user_status_changed
      sample_status_args [] (by decide) rfl).1⟩

/-- C4: `register_EVENT(cb)` makes the slot of its kind equal to `cb`, null included, whatever
it held, and leaves every other slot and the context unchanged; registering twice is
registering the last handler; after registering null an emit of that kind changes nothing;
and as a call on a registry and its queue, a registration leaves the queue, the log and the
worker as they were. -/
theorem register_EVENT_sets_only_its_slot (ev : Event) (cb : Ptr) (self : callback_registry) :
    (self.register_EVENT ev cb).slot ev = cb
    ∧ (∀ other : Event, other ≠ ev → (self.register_EVENT ev cb).slot other = self.slot other)
    ∧ (self.register_EVENT ev cb).context_ = self.context_
    ∧ (∀ first : Ptr,
        (self.register_EVENT ev first).register_EVENT ev cb = self.register_EVENT ev cb)
    ∧ (∀ (host : Host) (args : List Value) (q : queue_world emit_lambda),
        (self.register_EVENT ev nullptr).emit_EVENT host callback_registry.push_back ev args q
          = (self.register_EVENT ev nullptr, q))
    ∧ (∀ (host : Host) (q : queue_world emit_lambda),
        (Call.register_EVENT ev cb).apply host (self, q) = (self.register_EVENT ev cb, q)) := by
  refine ⟨slot_register_same ev cb self, ?_, context_register ev cb self, ?_, ?_,
    fun _ _ => rfl⟩
  · intro other h
    exact slot_register_other ev other cb self h
  · intro first
    exact register_register ev cb first self
  · intro host args q
    simp [callback_registry.emit_EVENT, slot_register_same]

theorem run_calls_append (host : Host) (first second : List Call)
    (s : callback_registry × queue_world emit_lambda) :
    run_calls host (first ++ second) s = run_calls host second (run_calls host first s) := by
  induction first generalizing s with
  | nil => rfl
  | cons c rest ih => exact ih (c.apply host s)

theorem run_calls_register_calls (host : Host) (regs : List (Event × Ptr))
    (s : callback_registry × queue_world emit_lambda) :
    run_calls host (register_calls regs) s = (register_all regs s.1, s.2) := by
  induction regs generalizing s with
  | nil => rfl
  | cons p rest ih => exact ih (s.1.register_EVENT p.1 p.2, s.2)

theorem handler_calls_of_call (host : Host) (lam : emit_lambda)
    (log : List (Effect emit_lambda)) :
    ∃ tail : List (Effect emit_lambda),
      (emit_lambda.call host lam log).log
          = log ++ Effect.handler lam.callback lam.context lam.args :: tail
        ∧ tail.filter Effect.is_handler = [] := by
  unfold emit_lambda.call Host.call_handler Host.call_cleanup
  cases host.handler lam.callback lam.context lam.args with
  | none => exact ⟨[Effect.cleanup lam.ev lam.args], by simp, rfl⟩
  | some e => exact ⟨[], by simp, rfl⟩

theorem worker_invokes_fresh_box (host : Host) (lam : emit_lambda) (context : Ptr)
    (log : List (Effect emit_lambda)) :
    ∃ tail : List (Effect emit_lambda),
      (((queue_world.new context log).push_back
            (type_erased_callback.of_FUNC (emit_lambda.call host) lam)).worker_step.worker_step).log
          = log ++ Effect.handler lam.callback lam.context lam.args :: tail
        ∧ tail.filter Effect.is_handler = []
        ∧ (((queue_world.new context log).push_back
            (type_erased_callback.of_FUNC (emit_lambda.call host) lam)).worker_step.worker_step).invoked
          = [type_erased_callback.of_FUNC (emit_lambda.call host) lam] := by
  obtain ⟨tail, htail, hfilter⟩ := handler_calls_of_call host lam log
  have hinv : (type_erased_callback.of_FUNC (emit_lambda.call host) lam).invoke log
      = emit_lambda.call host lam log := rfl
  have hdes : ∀ l : List (Effect emit_lambda),
      (type_erased_callback.of_FUNC (emit_lambda.call host) lam).destroy l
        = l ++ [Effect.delete_FUNC lam] := fun _ => rfl
  cases hr : (emit_lambda.call host lam log).raised with
  | none =>
    refine ⟨tail ++ [Effect.delete_FUNC lam], ?_, ?_, ?_⟩
    · simp [queue_world.worker_step, queue_world.push_back, callback_queue.push_back,
        queue_world.new, callback_queue.new, hinv, hr, htail, hdes]
    · simp [hfilter, Effect.is_handler]
    · simp [queue_world.worker_step, queue_world.push_back, callback_queue.push_back,
        queue_world.new, callback_queue.new, hinv, hr]
  | some e =>
    refine ⟨tail, ?_, hfilter, ?_⟩
    · simp [queue_world.worker_step, queue_world.push_back, callback_queue.push_back,
        queue_world.new, callback_queue.new, hinv, hr, htail]
    · simp [queue_world.worker_step, queue_world.push_back, callback_queue.push_back,
        queue_world.new, callback_queue.new, hinv, hr]

/-- C9: the box built by `emit_EVENT` holds the handler and the context that were current at
emit time. Emit an event whose kind has the handler h, then register anything (the same kind
again, null included), then let the worker take the box and invoke it: the registry now holds
what was registered last, the box invoked is the one built at emit time, the handler calls
the worker logged are exactly the one call of h with the context and the arguments of the
emit, and the state the box owns holds h and that context as values. -/
theorem emit_captures_handler_by_value (host : Host) (self : callback_registry) (ev : Event)
    (args : List Value) (regs : List (Event × Ptr)) (context : Ptr)
    (log : List (Effect emit_lambda)) (h : self.slot ev ≠ nullptr) :
    (run_calls host
        (Call.emit_EVENT ev args :: (register_calls regs ++ [Call.worker, Call.worker]))
        (self, queue_world.new context log)).1 = register_all regs self
    ∧ (run_calls host
        (Call.emit_EVENT ev args :: (register_calls regs ++ [Call.worker, Call.worker]))
        (self, queue_world.new context log)).2.invoked = [self.emit_box host ev args]
    ∧ ((run_calls host
        (Call.emit_EVENT ev args :: (register_calls regs ++ [Call.worker, Call.worker]))
        (self, queue_world.new context log)).2.log.drop log.length).filter Effect.is_handler
        = [Effect.handler (self.slot ev) self.context_ args]
    ∧ (self.emit_EVENT host record_push_back ev args []).2.map (fun cb => cb.data_.ptr)
        = [some { ev := ev, context := self.context_, callback := self.slot ev,
                  args := args }]
    ∧ (∀ cb : Ptr, (register_all (regs ++ [(ev, cb)]) self).slot ev = cb) := by
  have hrun : run_calls host
        (Call.emit_EVENT ev args :: (register_calls regs ++ [Call.worker, Call.worker]))
        (self, queue_world.new context log)
      = (register_all regs self,
          ((queue_world.new context log).push_back
            (self.emit_box host ev args)).worker_step.worker_step) := by
    show run_calls host (register_calls regs ++ [Call.worker, Call.worker])
        (self.emit_EVENT host callback_registry.push_back ev args (queue_world.new context log))
      = _
    rw [run_calls_append, run_calls_register_calls]
    simp [callback_registry.emit_EVENT, h, run_calls, Call.apply, callback_registry.push_back]
  obtain ⟨tail, hlog, hfilter, hinvoked⟩ :=
    worker_invokes_fresh_box host
      { ev := ev, context := self.context_, callback := self.slot ev, args := args } context log
  refine ⟨by rw [hrun], ?_, ?_, ?_, ?_⟩
  · rw [hrun]
    exact hinvoked
  · rw [hrun]
    show (List.drop log.length _).filter Effect.is_handler = _
    unfold callback_registry.emit_box
    rw [hlog]
    simp [hfilter, Effect.is_handler]
  · simp [callback_registry.emit_EVENT, h, record_push_back, callback_registry.emit_box,
      type_erased_callback.of_FUNC]
  · intro cb
    unfold register_all
    rw [List.foldl_append]
    exact slot_register_same ev cb _

/-- Witness of C9: on the sample registry, emit `user_status_changed`, then register null and
then the handler at 20480 for that kind, then let the worker run: the handler called is the
one at 4096. -/
theorem emit_captures_handler_by_value_witness :
    sample_registry.slot .user_status_changed ≠ nullptr
    ∧ ((run_calls returning_host
        (Call.emit_EVENT .user_status_changed sample_status_args ::
          (register_calls [(.user_status_changed, nullptr), (.user_status_changed, 20480)]
            ++ [Call.worker, Call.worker]))
        (sample_registry, queue_world.new 7 [])).2.log.drop
          ([] : List (Effect emit_lambda)).length).filter Effect.is_handler
        = [Effect.handler (sample_registry.slot .user_status_changed)
            sample_registry.context_ sample_status_args] :=
  ⟨by decide,
    (emit_captures_handler_by_value returning_host sample_registry .user_status_changed
      sample_status_args [(.user_status_changed, nullptr), (.user_status_changed, 20480)]
      7 [] (by decide)).2.2.1⟩

/-- C10: when the handler of a queued event raises, invoking the box (through `invoke`, or
through the stored thunk on the stored state) logs the handler call and nothing else and the
exception leaves the invocation; the cleanup routine is called once more than before exactly
when the handler returns, and not at all exactly when it raises. -/
theorem emit_box_invoke_handler_raises (host : Host) (self : callback_registry) (ev : Event)
    (args : List Value) (log : List (Effect emit_lambda)) :
    (∀ e : Exn, host.handler (self.slot ev) self.context_ args = some e →
        (self.emit_box host ev args).invoke log
          = { log := log ++ [Effect.handler (self.slot ev) self.context_ args],
              raised := some e })
    ∧ (∀ e : Exn, host.handler (self.slot ev) self.context_ args = some e →
        ∀ thunk ∈ (self.emit_box host ev args).callback_,
        ∀ data ∈ (self.emit_box host ev args).data_.ptr,
          thunk data log
            = { log := log ++ [Effect.handler (self.slot ev) self.context_ args],
                raised := some e })
    ∧ (cleanup_calls ((self.emit_box host ev args).invoke log).log = cleanup_calls log + 1
        ↔ host.handler (self.slot ev) self.context_ args = none)
    ∧ (cleanup_calls ((self.emit_box host ev args).invoke log).log = cleanup_calls log
        ↔ host.handler (self.slot ev) self.context_ args ≠ none) := by
  refine ⟨?_, ?_, ?_, ?_⟩
  · intro e he
    simp [emit_box_invoke, emit_lambda.call, Host.call_handler, he]
  · intro e he thunk hthunk data hdata
    simp only [callback_registry.emit_box, type_erased_callback.of_FUNC, Option.mem_def,
      Option.some.injEq] at hthunk hdata
    subst hthunk hdata
    simp [emit_lambda.call, Host.call_handler, he]
  · cases he : host.handler (self.slot ev) self.context_ args with
    | none =>
      simp [emit_box_invoke, emit_lambda.call, Host.call_handler, Host.call_cleanup, he,
        cleanup_calls, Effect.is_cleanup, List.filter_append]
    | some e =>
      simp [emit_box_invoke, emit_lambda.call, Host.call_handler, he,
        cleanup_calls, Effect.is_cleanup, List.filter_append]
  · cases he : host.handler (self.slot ev) self.context_ args with
    | none =>
      simp [emit_box_invoke, emit_lambda.call, Host.call_handler, Host.call_cleanup, he,
        cleanup_calls, Effect.is_cleanup, List.filter_append]
    | some e =>
      simp [emit_box_invoke, emit_lambda.call, Host.call_handler, he,
        cleanup_calls, Effect.is_cleanup, List.filter_append]

/-- Witness of C10: with a host whose handlers raise exception 42, invoking the box of a
`user_status_changed` event logs the handler call only and raises 42. -/
theorem emit_box_invoke_handler_raises_witness :
    raising_host.handler (sample_registry.slot .user_status_changed)
        sample_registry.context_ sample_status_args = some 42
    ∧ (sample_registry.emit_box raising_host .user_status_changed sample_status_args).invoke []
      = { log := [Effect.handler 4096 7 sample_status_args], raised := some 42 } :=
  ⟨rfl,
    (emit_box_invoke_handler_raises raising_host sample_registry .user_status_changed
      sample_status_args []).1 42 rfl⟩

/-! ## The argument shapes -/

theorem move_once_eq {F : Type} (k : move_kind) (cur : type_erased_callback F)
    (log : List (Effect F)) :
    move_once k cur log = (cur, type_erased_callback.empty, log) := by
  cases k <;> rfl

theorem move_chain_eq {F : Type} (kinds : List move_kind) (cur : type_erased_callback F)
    (husks : List (type_erased_callback F)) (log : List (Effect F)) :
    move_chain kinds cur husks log
      = (cur, husks ++ List.replicate kinds.length type_erased_callback.empty, log) := by
  induction kinds generalizing husks with
  | nil => simp [move_chain]
  | cons k rest ih =>
    rw [move_chain, move_once_eq, ih]
    simp [List.replicate_succ]

theorem destroy_all_append {F : Type} (first second : List (type_erased_callback F))
    (log : List (Effect F)) :
    destroy_all (first ++ second) log = destroy_all second (destroy_all first log) := by
  induction first generalizing log with
  | nil => rfl
  | cons b rest ih => exact ih (b.destroy log)

theorem destroy_all_replicate_empty {F : Type} (n : Nat) (log : List (Effect F)) :
    destroy_all (List.replicate n (type_erased_callback.empty : type_erased_callback F)) log
      = log := by
  induction n with
  | zero => rfl
  | succ n ih =>
    rw [List.replicate_succ]
    exact ih

/-- C7: for the box b built from a computation f, move construction and move assignment
(modelled from the specification) give a box with the state and the invoke function of b and
leave the source empty, with no state and no invoke function; invoking or destroying an empty
box does nothing; and after a chain of moves of any length and kinds, the box at the end is b,
every box left behind is empty, and destroying all of them deletes the state f exactly once. -/
theorem move_transfers_state_once {F : Type} (call : F → List (Effect F) → Outcome F) (f : F)
    (log : List (Effect F)) :
    (type_erased_callback.of_FUNC call f).move_construct
      = (type_erased_callback.of_FUNC call f, type_erased_callback.empty)
    ∧ (∀ target : type_erased_callback F,
        target.move_assign (type_erased_callback.of_FUNC call f) log
          = (type_erased_callback.of_FUNC call f, type_erased_callback.empty,
              target.destroy log))
    ∧ (type_erased_callback.empty : type_erased_callback F).data_.ptr = none
    ∧ (type_erased_callback.empty : type_erased_callback F).callback_ = none
    ∧ (type_erased_callback.empty : type_erased_callback F).invoke log
        = { log := log, raised := none }
    ∧ (type_erased_callback.empty : type_erased_callback F).destroy log = log
    ∧ (∀ kinds : List move_kind,
        (move_chain kinds (type_erased_callback.of_FUNC call f) [] log).1
            = type_erased_callback.of_FUNC call f
        ∧ (move_chain kinds (type_erased_callback.of_FUNC call f) [] log).2.1
            = List.replicate kinds.length type_erased_callback.empty
        ∧ destroy_all
            ((move_chain kinds (type_erased_callback.of_FUNC call f) [] log).2.1
              ++ [(move_chain kinds (type_erased_callback.of_FUNC call f) [] log).1])
            (move_chain kinds (type_erased_callback.of_FUNC call f) [] log).2.2
          = log ++ [Effect.delete_FUNC f]) := by
  refine ⟨rfl, fun _ => rfl, rfl, rfl, rfl, rfl, ?_⟩
  intro kinds
  rw [move_chain_eq]
  refine ⟨rfl, by simp, ?_⟩
  rw [destroy_all_append]
  simp only [List.nil_append]
  rw [destroy_all_replicate_empty]
  rfl

/-! ## The queue -/

theorem worker_step_exit {F : Type} (s : queue_world F) (hesc : s.escaped = none)
    (hrun : s.queue.worker_exited = false) (hcur : s.queue.worker_current = none)
    (hpend : s.queue.pending_callbacks_ = []) (hterm : s.queue.terminating_ = true) :
    s.worker_step = { s with queue := { s.queue with worker_exited := true } } := by
  simp [queue_world.worker_step, hesc, hrun, hcur, hpend, hterm]

theorem worker_step_take {F : Type} (s : queue_world F) (cb : type_erased_callback F)
    (rest : List (type_erased_callback F)) (hesc : s.escaped = none)
    (hrun : s.queue.worker_exited = false) (hcur : s.queue.worker_current = none)
    (hpend : s.queue.pending_callbacks_ = cb :: rest) :
    s.worker_step
      = { s with queue := { s.queue with pending_callbacks_ := rest,
                                         worker_current := some cb } } := by
  simp [queue_world.worker_step, hesc, hrun, hcur, hpend]

theorem worker_step_invoke {F : Type} (s : queue_world F) (cb : type_erased_callback F)
    (hesc : s.escaped = none) (hrun : s.queue.worker_exited = false)
    (hcur : s.queue.worker_current = some cb) (hret : (cb.invoke s.log).raised = none) :
    s.worker_step
      = { queue := { s.queue with worker_current := none },
          log := cb.destroy (cb.invoke s.log).log,
          invoked := s.invoked ++ [cb], escaped := none } := by
  simp [queue_world.worker_step, hesc, hrun, hcur, hret]

/-- The boxes of a world in queue order: those invoked, the one in the hands of the worker,
those pending. -/
theorem worker_step_order {F : Type} (s : queue_world F) :
    s.worker_step.invoked ++ s.worker_step.queue.worker_current.toList
        ++ s.worker_step.queue.pending_callbacks_
      = s.invoked ++ s.queue.worker_current.toList ++ s.queue.pending_callbacks_ := by
  unfold queue_world.worker_step
  cases hesc : s.escaped with
  | some e => simp
  | none =>
    cases hrun : s.queue.worker_exited with
    | true => simp
    | false =>
      cases hcur : s.queue.worker_current with
      | some cb =>
        cases hret : (cb.invoke s.log).raised with
        | none => simp [hret]
        | some e => simp [hret]
      | none =>
        cases hpend : s.queue.pending_callbacks_ with
        | nil =>
          cases hterm : s.queue.terminating_ <;> simp [hcur, hpend]
        | cons cb rest => simp

theorem apply_order {F : Type} (a : Action F) (s : queue_world F) :
    (a.apply s).invoked ++ (a.apply s).queue.worker_current.toList
        ++ (a.apply s).queue.pending_callbacks_
      = s.invoked ++ s.queue.worker_current.toList ++ s.queue.pending_callbacks_
          ++ pushed [a] := by
  cases a with
  | push_back thread cb =>
    simp [Action.apply, queue_world.push_back, callback_queue.push_back, pushed]
  | worker =>
    simp only [Action.apply, pushed, List.append_nil]
    exact worker_step_order s

theorem pushed_cons {F : Type} (a : Action F) (rest : List (Action F)) :
    pushed (a :: rest) = pushed [a] ++ pushed rest := by
  cases a <;> simp [pushed]

theorem run_schedule_order {F : Type} (acts : List (Action F)) (s : queue_world F) :
    (run_schedule acts s).invoked ++ (run_schedule acts s).queue.worker_current.toList
        ++ (run_schedule acts s).queue.pending_callbacks_
      = s.invoked ++ s.queue.worker_current.toList ++ s.queue.pending_callbacks_
          ++ pushed acts := by
  induction acts generalizing s with
  | nil => simp [run_schedule, pushed]
  | cons a rest ih =>
    rw [run_schedule, ih, apply_order, pushed_cons a rest]
    simp

theorem join_exited {F : Type} (fuel : Nat) (s : queue_world F)
    (h : s.queue.worker_exited = true) : queue_world.join fuel s = some s := by
  unfold queue_world.join
  simp [h]

theorem join_succ {F : Type} (fuel : Nat) (s : queue_world F)
    (h : s.queue.worker_exited = false) :
    queue_world.join (fuel + 1) s = queue_world.join fuel s.worker_step := by
  rw [queue_world.join]
  simp [h]

/-- A worker that is told to terminate and holds nothing flushes what is pending and exits,
given two steps for each pending box and one more. -/
theorem join_flushes {F : Type} (pending : List (type_erased_callback F)) :
    ∀ (s : queue_world F) (fuel : Nat),
      s.escaped = none → s.queue.worker_exited = false → s.queue.terminating_ = true →
      s.queue.worker_current = none → s.queue.pending_callbacks_ = pending →
      (∀ cb ∈ pending, ∀ l : List (Effect F), (cb.invoke l).raised = none) →
      2 * pending.length + 1 ≤ fuel →
      ∃ s' : queue_world F, queue_world.join fuel s = some s'
        ∧ s'.invoked = s.invoked ++ pending
        ∧ s'.queue.pending_callbacks_ = []
        ∧ s'.queue.worker_current = none
        ∧ s'.queue.worker_exited = true
        ∧ s'.escaped = none := by
  induction pending with
  | nil =>
    intro s fuel hesc hrun hterm hcur hpend _ hfuel
    obtain ⟨n, rfl⟩ : ∃ n, fuel = n + 1 := ⟨fuel - 1, by simp at hfuel; omega⟩
    rw [join_succ n s hrun, worker_step_exit s hesc hrun hcur hpend hterm,
      join_exited n _ rfl]
    exact ⟨_, rfl, by simp, hpend, hcur, rfl, hesc⟩
  | cons cb rest ih =>
    intro s fuel hesc hrun hterm hcur hpend hret hfuel
    obtain ⟨n, rfl⟩ : ∃ n, fuel = n + 2 := ⟨fuel - 2, by simp at hfuel; omega⟩
    have hcb : ∀ l : List (Effect F), (cb.invoke l).raised = none :=
      hret cb (List.mem_cons_self cb rest)
    have e1 := worker_step_take s cb rest hesc hrun hcur hpend
    have a1 : s.worker_step.escaped = none := by rw [e1]; exact hesc
    have a2 : s.worker_step.queue.worker_exited = false := by rw [e1]; exact hrun
    have a3 : s.worker_step.queue.worker_current = some cb := by rw [e1]
    have a4 : s.worker_step.queue.pending_callbacks_ = rest := by rw [e1]
    have a5 : s.worker_step.queue.terminating_ = true := by rw [e1]; exact hterm
    have a6 : s.worker_step.invoked = s.invoked := by rw [e1]
    have e2 := worker_step_invoke s.worker_step cb a1 a2 a3 (hcb _)
    have b1 : s.worker_step.worker_step.escaped = none := by rw [e2]
    have b2 : s.worker_step.worker_step.queue.worker_exited = false := by rw [e2]; exact a2
    have b3 : s.worker_step.worker_step.queue.worker_current = none := by rw [e2]
    have b4 : s.worker_step.worker_step.queue.pending_callbacks_ = rest := by
      rw [e2]; exact a4
    have b5 : s.worker_step.worker_step.queue.terminating_ = true := by rw [e2]; exact a5
    have b6 : s.worker_step.worker_step.invoked = s.invoked ++ [cb] := by rw [e2, a6]
    rw [join_succ (n + 1) s hrun, join_succ n s.worker_step a2]
    obtain ⟨s', hjoin, hinv, hp, hc, hx, he⟩ :=
      ih s.worker_step.worker_step n b1 b2 b5 b3 b4
        (fun other hmem => hret other (List.mem_cons_of_mem cb hmem))
        (by simp at hfuel; omega)
    exact ⟨s', hjoin, by rw [hinv, b6]; simp, hp, hc, hx, he⟩

/-- A worker that is told to terminate and may hold a box flushes it and what is pending. -/
theorem join_flushes_held {F : Type} (s : queue_world F) (fuel : Nat)
    (hesc : s.escaped = none) (hrun : s.queue.worker_exited = false)
    (hterm : s.queue.terminating_ = true)
    (hret : ∀ cb ∈ s.queue.worker_current.toList ++ s.queue.pending_callbacks_,
      ∀ l : List (Effect F), (cb.invoke l).raised = none)
    (hfuel : 2 * (s.queue.worker_current.toList ++ s.queue.pending_callbacks_).length + 1
      ≤ fuel) :
    ∃ s' : queue_world F, queue_world.join fuel s = some s'
      ∧ s'.invoked
          = s.invoked ++ s.queue.worker_current.toList ++ s.queue.pending_callbacks_
      ∧ s'.queue.pending_callbacks_ = []
      ∧ s'.queue.worker_current = none
      ∧ s'.queue.worker_exited = true
      ∧ s'.escaped = none := by
  cases hcur : s.queue.worker_current with
  | none =>
    rw [hcur] at hret hfuel
    obtain ⟨s', hjoin, hinv, rest⟩ :=
      join_flushes s.queue.pending_callbacks_ s fuel hesc hrun hterm hcur rfl
        (fun cb hmem => hret cb (by simpa using hmem)) (by simpa using hfuel)
    exact ⟨s', hjoin, by rw [hinv]; simp, rest⟩
  | some cb =>
    rw [hcur] at hret hfuel
    obtain ⟨n, rfl⟩ : ∃ n, fuel = n + 1 := ⟨fuel - 1, by simp at hfuel; omega⟩
    have e2 := worker_step_invoke s cb hesc hrun hcur (hret cb (by simp) _)
    have b1 : s.worker_step.escaped = none := by rw [e2]
    have b2 : s.worker_step.queue.worker_exited = false := by rw [e2]; exact hrun
    have b3 : s.worker_step.queue.worker_current = none := by rw [e2]
    have b4 : s.worker_step.queue.pending_callbacks_ = s.queue.pending_callbacks_ := by
      rw [e2]
    have b5 : s.worker_step.queue.terminating_ = true := by rw [e2]; exact hterm
    have b6 : s.worker_step.invoked = s.invoked ++ [cb] := by rw [e2]
    rw [join_succ n s hrun]
    obtain ⟨s', hjoin, hinv, rest⟩ :=
      join_flushes s.queue.pending_callbacks_ s.worker_step n b1 b2 b5 b3 b4
        (fun other hmem => hret other (by simp [hmem])) (by simp at hfuel; omega)
    exact ⟨s', hjoin, by rw [hinv, b6]; simp, rest⟩

/-- An interleaving of pushes and worker steps on a queue that is running, with callbacks that
return, leaves the queue running and no exception escaped. -/
theorem run_schedule_running {F : Type} (acts : List (Action F)) :
    ∀ s : queue_world F,
      s.escaped = none → s.queue.worker_exited = false → s.queue.terminating_ = false →
      (∀ cb ∈ s.queue.worker_current.toList ++ s.queue.pending_callbacks_ ++ pushed acts,
        ∀ l : List (Effect F), (cb.invoke l).raised = none) →
      (run_schedule acts s).escaped = none
        ∧ (run_schedule acts s).queue.worker_exited = false
        ∧ (run_schedule acts s).queue.terminating_ = false := by
  induction acts with
  | nil =>
    intro s hesc hrun hterm _
    exact ⟨hesc, hrun, hterm⟩
  | cons a rest ih =>
    intro s hesc hrun hterm hret
    rw [run_schedule]
    rw [pushed_cons] at hret
    cases a with
    | push_back thread cb =>
      refine ih _ hesc hrun hterm ?_
      intro other hmem
      apply hret other
      simp only [Action.apply, queue_world.push_back, callback_queue.push_back] at hmem
      simp only [pushed, List.mem_append, List.mem_singleton, List.mem_cons] at hmem ⊢
      tauto
    | worker =>
      simp only [Action.apply]
      simp only [pushed, List.nil_append] at hret
      cases hcur : s.queue.worker_current with
      | some cb =>
        have hcb : (cb.invoke s.log).raised = none :=
          hret cb (by simp [hcur]) _
        rw [worker_step_invoke s cb hesc hrun hcur hcb]
        refine ih _ rfl hrun hterm ?_
        intro other hmem
        apply hret other
        simp only [List.mem_append, Option.toList_none, List.not_mem_nil, false_or] at hmem
        simp only [List.mem_append]
        tauto
      | none =>
        cases hpend : s.queue.pending_callbacks_ with
        | nil =>
          have hstep : s.worker_step = s := by
            simp [queue_world.worker_step, hesc, hrun, hcur, hpend, hterm]
          rw [hstep]
          exact ih s hesc hrun hterm hret
        | cons cb more =>
          rw [worker_step_take s cb more hesc hrun hcur hpend]
          refine ih _ hesc hrun hterm ?_
          intro other hmem
          apply hret other
          rw [hcur, hpend]
          simpa using hmem

theorem run_schedule_append {F : Type} (first second : List (Action F))
    (s : queue_world F) :
    run_schedule (first ++ second) s = run_schedule second (run_schedule first s) := by
  induction first generalizing s with
  | nil => rfl
  | cons a rest ih => exact ih (a.apply s)

theorem worker_step_wait {F : Type} (s : queue_world F) (hesc : s.escaped = none)
    (hrun : s.queue.worker_exited = false) (hcur : s.queue.worker_current = none)
    (hpend : s.queue.pending_callbacks_ = []) (hterm : s.queue.terminating_ = false) :
    s.worker_step = s := by
  simp [queue_world.worker_step, hesc, hrun, hcur, hpend, hterm]

theorem workers_wait {F : Type} (n : Nat) (s : queue_world F) (hesc : s.escaped = none)
    (hrun : s.queue.worker_exited = false) (hcur : s.queue.worker_current = none)
    (hpend : s.queue.pending_callbacks_ = []) (hterm : s.queue.terminating_ = false) :
    run_schedule (List.replicate n Action.worker) s = s := by
  induction n with
  | zero => rfl
  | succ n ih =>
    rw [List.replicate_succ, run_schedule]
    show run_schedule (List.replicate n Action.worker) s.worker_step = s
    rw [worker_step_wait s hesc hrun hcur hpend hterm]
    exact ih

/-- A running worker that holds nothing invokes what is pending, given two steps for each
pending box. -/
theorem workers_flush {F : Type} (pending : List (type_erased_callback F)) :
    ∀ (s : queue_world F) (n : Nat),
      s.escaped = none → s.queue.worker_exited = false → s.queue.terminating_ = false →
      s.queue.worker_current = none → s.queue.pending_callbacks_ = pending →
      (∀ cb ∈ pending, ∀ l : List (Effect F), (cb.invoke l).raised = none) →
      2 * pending.length ≤ n →
      (run_schedule (List.replicate n Action.worker) s).invoked = s.invoked ++ pending
        ∧ (run_schedule (List.replicate n Action.worker) s).queue.pending_callbacks_ = []
        ∧ (run_schedule (List.replicate n Action.worker) s).queue.worker_current = none := by
  induction pending with
  | nil =>
    intro s n hesc hrun hterm hcur hpend _ _
    rw [workers_wait n s hesc hrun hcur hpend hterm]
    exact ⟨by simp, hpend, hcur⟩
  | cons cb rest ih =>
    intro s n hesc hrun hterm hcur hpend hret hn
    obtain ⟨m, rfl⟩ : ∃ m, n = m + 2 := ⟨n - 2, by simp at hn; omega⟩
    have hcb : ∀ l : List (Effect F), (cb.invoke l).raised = none :=
      hret cb (List.mem_cons_self cb rest)
    have e1 := worker_step_take s cb rest hesc hrun hcur hpend
    have a1 : s.worker_step.escaped = none := by rw [e1]; exact hesc
    have a2 : s.worker_step.queue.worker_exited = false := by rw [e1]; exact hrun
    have a3 : s.worker_step.queue.worker_current = some cb := by rw [e1]
    have a4 : s.worker_step.queue.pending_callbacks_ = rest := by rw [e1]
    have a5 : s.worker_step.queue.terminating_ = false := by rw [e1]; exact hterm
    have a6 : s.worker_step.invoked = s.invoked := by rw [e1]
    have e2 := worker_step_invoke s.worker_step cb a1 a2 a3 (hcb _)
    have b1 : s.worker_step.worker_step.escaped = none := by rw [e2]
    have b2 : s.worker_step.worker_step.queue.worker_exited = false := by rw [e2]; exact a2
    have b3 : s.worker_step.worker_step.queue.worker_current = none := by rw [e2]
    have b4 : s.worker_step.worker_step.queue.pending_callbacks_ = rest := by
      rw [e2]; exact a4
    have b5 : s.worker_step.worker_step.queue.terminating_ = false := by rw [e2]; exact a5
    have b6 : s.worker_step.worker_step.invoked = s.invoked ++ [cb] := by rw [e2, a6]
    have hsplit : run_schedule (List.replicate (m + 2) Action.worker) s
        = run_schedule (List.replicate m Action.worker) s.worker_step.worker_step := by
      rw [List.replicate_succ, List.replicate_succ]
      rfl
    rw [hsplit]
    obtain ⟨hinv, hp, hc⟩ :=
      ih s.worker_step.worker_step m b1 b2 b5 b3 b4
        (fun other hmem => hret other (List.mem_cons_of_mem cb hmem))
        (by simp at hn; omega)
    exact ⟨by rw [hinv, b6]; simp, hp, hc⟩

/-- A running worker that may hold a box invokes it and what is pending. -/
theorem workers_flush_held {F : Type} (s : queue_world F) (n : Nat)
    (hesc : s.escaped = none) (hrun : s.queue.worker_exited = false)
    (hterm : s.queue.terminating_ = false)
    (hret : ∀ cb ∈ s.queue.worker_current.toList ++ s.queue.pending_callbacks_,
      ∀ l : List (Effect F), (cb.invoke l).raised = none)
    (hn : 2 * (s.queue.worker_current.toList ++ s.queue.pending_callbacks_).length ≤ n) :
    (run_schedule (List.replicate n Action.worker) s).invoked
        = s.invoked ++ s.queue.worker_current.toList ++ s.queue.pending_callbacks_
      ∧ (run_schedule (List.replicate n Action.worker) s).queue.pending_callbacks_ = []
      ∧ (run_schedule (List.replicate n Action.worker) s).queue.worker_current = none := by
  cases hcur : s.queue.worker_current with
  | none =>
    rw [hcur] at hret hn
    obtain ⟨hinv, rest⟩ :=
      workers_flush s.queue.pending_callbacks_ s n hesc hrun hterm hcur rfl
        (fun cb hmem => hret cb (by simpa using hmem)) (by simpa using hn)
    exact ⟨by rw [hinv]; simp, rest⟩
  | some cb =>
    rw [hcur] at hret hn
    obtain ⟨m, rfl⟩ : ∃ m, n = m + 1 := ⟨n - 1, by simp at hn; omega⟩
    have e2 := worker_step_invoke s cb hesc hrun hcur (hret cb (by simp) _)
    have b1 : s.worker_step.escaped = none := by rw [e2]
    have b2 : s.worker_step.queue.worker_exited = false := by rw [e2]; exact hrun
    have b3 : s.worker_step.queue.worker_current = none := by rw [e2]
    have b4 : s.worker_step.queue.pending_callbacks_ = s.queue.pending_callbacks_ := by
      rw [e2]
    have b5 : s.worker_step.queue.terminating_ = false := by rw [e2]; exact hterm
    have b6 : s.worker_step.invoked = s.invoked ++ [cb] := by rw [e2]
    have hsplit : run_schedule (List.replicate (m + 1) Action.worker) s
        = run_schedule (List.replicate m Action.worker) s.worker_step := by
      rw [List.replicate_succ]
      rfl
    rw [hsplit]
    obtain ⟨hinv, rest⟩ :=
      workers_flush s.queue.pending_callbacks_ s.worker_step m b1 b2 b5 b3 b4
        (fun other hmem => hret other (by simp [hmem])) (by simp at hn; omega)
    exact ⟨by rw [hinv, b6]; simp, rest⟩

/-- C6: for every interleaving of `push_back` calls by any threads and of worker steps on a
fresh queue, the boxes the worker has invoked, then the box it holds, then the pending boxes
are exactly the boxes pushed, in the order their appends completed: the worker invokes a
prefix of that order, nothing twice and nothing out of turn; once nothing is pending or held
every pushed box has been invoked, in push order; and when the pushed callbacks return, two
worker steps per pushed box after the interleaving are enough for that. -/
theorem worker_invokes_in_push_order {F : Type} (context : Ptr) (log : List (Effect F))
    (acts : List (Action F)) :
    (run_schedule acts (queue_world.new context log)).invoked
        ++ (run_schedule acts (queue_world.new context log)).queue.worker_current.toList
        ++ (run_schedule acts (queue_world.new context log)).queue.pending_callbacks_
      = pushed acts
    ∧ (run_schedule acts (queue_world.new context log)).invoked <+: pushed acts
    ∧ ((run_schedule acts (queue_world.new context log)).queue.pending_callbacks_ = [] →
        (run_schedule acts (queue_world.new context log)).queue.worker_current = none →
        (run_schedule acts (queue_world.new context log)).invoked = pushed acts)
    ∧ ((∀ cb ∈ pushed acts, ∀ l : List (Effect F), (cb.invoke l).raised = none) →
        ∀ n : Nat, 2 * (pushed acts).length ≤ n →
        (run_schedule (acts ++ List.replicate n Action.worker)
          (queue_world.new context log)).invoked = pushed acts) := by
  have horder := run_schedule_order acts (queue_world.new context log)
  have hnew : (queue_world.new context log).invoked
      ++ (queue_world.new context log).queue.worker_current.toList
      ++ (queue_world.new context log).queue.pending_callbacks_ = [] := rfl
  rw [hnew, List.nil_append] at horder
  refine ⟨horder, ?_, ?_, ?_⟩
  · rw [← horder, List.append_assoc]
    exact List.prefix_append _ _
  · intro hpend hcur
    rw [← horder, hpend, hcur]
    simp
  · intro hret n hn
    obtain ⟨hesc, hrun, hterm⟩ :=
      run_schedule_running acts (queue_world.new context log) rfl rfl rfl
        (fun cb hmem => hret cb (by
          simpa [queue_world.new, callback_queue.new] using hmem))
    have hsub : ∀ cb ∈
        (run_schedule acts (queue_world.new context log)).queue.worker_current.toList
          ++ (run_schedule acts (queue_world.new context log)).queue.pending_callbacks_,
        cb ∈ pushed acts := by
      intro cb hmem
      rw [← horder, List.append_assoc]
      exact List.mem_append_right _ hmem
    have hlen : (pushed acts).length
        = (run_schedule acts (queue_world.new context log)).invoked.length
          + ((run_schedule acts (queue_world.new context log)).queue.worker_current.toList
            ++ (run_schedule acts
                (queue_world.new context log)).queue.pending_callbacks_).length := by
      rw [← horder, List.append_assoc, List.length_append]
    rw [run_schedule_append]
    rw [(workers_flush_held (run_schedule acts (queue_world.new context log)) n hesc hrun
      hterm (fun cb hmem => hret cb (hsub cb hmem)) (by omega)).1]
    exact horder

/-- Witness of C6: thread 1 pushes a1, thread 2 pushes b1, thread 1 pushes a2, with worker
steps in between and after; the worker invokes a1, b1, a2 in that order, and the handler is
called for the users 161, 177, 162 in that order. -/
theorem worker_invokes_in_push_order_witness :
    (run_schedule sample_schedule (queue_world.new 7 [])).invoked
        = [sample_box 161, sample_box 177, sample_box 162]
    ∧ (run_schedule sample_schedule (queue_world.new 7 [])).log.filter Effect.is_handler
        = [ Effect.handler 4096 7
              [{ ty := .tego_user_id_ptr, raw := 161 }, { ty := .tego_user_status, raw := 1 }],
            Effect.handler 4096 7
              [{ ty := .tego_user_id_ptr, raw := 177 }, { ty := .tego_user_status, raw := 1 }],
            Effect.handler 4096 7
              [{ ty := .tego_user_id_ptr, raw := 162 }, { ty := .tego_user_status, raw := 1 }] ] :=
  ⟨(worker_invokes_in_push_order 7 [] sample_schedule).2.2.1 rfl rfl, by decide⟩

/-- C8: take any interleaving of pushes and worker steps on a fresh queue, K being the number
of boxes pushed, all of which return when invoked, and then destroy the queue (modelled from
the specification: the flag is set, the worker flushes, the destructor joins). Given fuel for
two worker steps per pushed box and one more, the destructor returns, the worker has stopped,
nothing is pending, and the boxes invoked are exactly the K pushed ones, in push order. -/
theorem destructor_flushes_pending {F : Type} (context : Ptr) (log : List (Effect F))
    (acts : List (Action F)) (fuel : Nat)
    (hret : ∀ cb ∈ pushed acts, ∀ l : List (Effect F), (cb.invoke l).raised = none)
    (hfuel : 2 * (pushed acts).length + 1 ≤ fuel) :
    ∃ s' : queue_world F,
      (run_schedule acts (queue_world.new context log)).destructor fuel = some s'
      ∧ s'.invoked = pushed acts
      ∧ s'.invoked.length = (pushed acts).length
      ∧ s'.queue.pending_callbacks_ = []
      ∧ s'.queue.worker_current = none
      ∧ s'.queue.state = worker_state.Stopped
      ∧ s'.escaped = none := by
  obtain ⟨hesc, hrun, -⟩ :=
    run_schedule_running acts (queue_world.new context log) rfl rfl rfl
      (fun cb hmem => hret cb (by
        simpa [queue_world.new, callback_queue.new] using hmem))
  have horder := (run_schedule_order acts (queue_world.new context log))
  have hnew : (queue_world.new context log).invoked
      ++ (queue_world.new context log).queue.worker_current.toList
      ++ (queue_world.new context log).queue.pending_callbacks_ = [] := rfl
  rw [hnew, List.nil_append] at horder
  have hsub : ∀ cb ∈ (run_schedule acts (queue_world.new context log)).queue.worker_current.toList
        ++ (run_schedule acts (queue_world.new context log)).queue.pending_callbacks_,
      cb ∈ pushed acts := by
    intro cb hmem
    rw [← horder, List.append_assoc]
    exact List.mem_append_right _ hmem
  have hlen : (pushed acts).length
      = (run_schedule acts (queue_world.new context log)).invoked.length
        + ((run_schedule acts (queue_world.new context log)).queue.worker_current.toList
          ++ (run_schedule acts (queue_world.new context log)).queue.pending_callbacks_).length := by
    rw [← horder, List.append_assoc, List.length_append]
  obtain ⟨s', hjoin, hinv, hp, hc, hx, he⟩ :=
    join_flushes_held
      { (run_schedule acts (queue_world.new context log)) with
        queue := { (run_schedule acts (queue_world.new context log)).queue with
                   terminating_ := true } }
      fuel hesc hrun rfl (fun cb hmem => hret cb (hsub cb hmem)) (by
        show 2 * ((run_schedule acts (queue_world.new context log)).queue.worker_current.toList
          ++ (run_schedule acts (queue_world.new context log)).queue.pending_callbacks_).length
            + 1 ≤ fuel
        omega)
  refine ⟨s', hjoin, ?_, ?_, hp, hc, ?_, he⟩
  · rw [hinv]
    exact horder
  · rw [hinv]
    exact congrArg List.length horder
  · simp [callback_queue.state, hx]

/-- Witness of C8: after the sample pushes (three boxes, one of them already taken by the
worker) the destructor with fuel 7 returns with a1, b1, a2 invoked in that order. -/
theorem destructor_flushes_pending_witness :
    (∀ cb ∈ pushed sample_pushes, ∀ l : List (Effect emit_lambda), (cb.invoke l).raised = none)
    ∧ 2 * (pushed sample_pushes).length + 1 ≤ 7
    ∧ ∃ s' : queue_world emit_lambda,
        (run_schedule sample_pushes (queue_world.new 7 [])).destructor 7 = some s'
        ∧ s'.invoked = pushed sample_pushes
        ∧ s'.invoked.length = (pushed sample_pushes).length
        ∧ s'.queue.pending_callbacks_ = []
        ∧ s'.queue.worker_current = none
        ∧ s'.queue.state = worker_state.Stopped
        ∧ s'.escaped = none :=
  have hret : ∀ cb ∈ pushed sample_pushes, ∀ l : List (Effect emit_lambda),
      (cb.invoke l).raised = none := by
    intro cb hmem l
    simp only [sample_pushes, pushed, List.mem_cons, List.mem_singleton, List.not_mem_nil,
      or_false] at hmem
    rcases hmem with h | h | h <;> subst h <;> rfl
  ⟨hret, by decide, destructor_flushes_pending 7 [] sample_pushes 7 hret (by decide)⟩

end tego
